import Mathlib

/-!
Verification of the scrollback viewport engine: the scroll controller,
height index, scrollbar geometry (src/components/ScrollArea.tsx) and the
text wrapper (src/components/Message.tsx), embedded shallowly.  JS numbers
holding line counts and offsets are modelled as `Int`; the real-valued
scrollbar arithmetic is modelled over `ℚ`.
-/

namespace Woof

/-! ## ScrollController (src/components/ScrollArea.tsx)

The component keeps one piece of state, `scrollOffset`, plus the props of
the latest render (`totalLines` via children/itemHeights, `height`,
`scrollToBottomTrigger`).  Two `useEffect` hooks react to prop changes:

* effect A, deps `[scrollToBottomTrigger, maxScrollOffset]`:
  `if (scrollToBottomTrigger > 0) setScrollOffset(maxScrollOffset)`;
* effect B, deps `[maxScrollOffset, scrollOffset]`:
  `if (scrollOffset > maxScrollOffset) setScrollOffset(maxScrollOffset)`.

A React effect re-runs after a render exactly when its dependency tuple
differs from the previous render's.  `stepProps` is the net result of
delivering one new prop tuple and letting the render/effect loop reach its
fixpoint: effect A fires when `(trigger, maxOffset)` changed and the
trigger is positive; effect B fires when `maxOffset` changed (its stored
`scrollOffset` dep equals the current offset) and clamps; a follow-up
render caused by a state write re-checks B, which is then a no-op. -/

structure ScrollState where
  totalLines : Int
  height : Int
  trigger : Int
  offset : Int
deriving DecidableEq

/-- maxScrollOffset = Math.max(0, totalLines - height). -/
def maxOffsetOf (totalLines height : Int) : Int := max 0 (totalLines - height)

def ScrollState.maxOffset (s : ScrollState) : Int := maxOffsetOf s.totalLines s.height

/-- The scroll callback: setScrollOffset(Math.max(0, Math.min(maxScrollOffset, prev + delta))). -/
def scroll (s : ScrollState) (delta : Int) : ScrollState :=
  { s with offset := max 0 (min s.maxOffset (s.offset + delta)) }

/-- Delivering a new prop tuple (totalLines, height, trigger) to the component. -/
def stepProps (s : ScrollState) (l h t : Int) : ScrollState :=
  let m := s.maxOffset
  let m' := maxOffsetOf l h
  { totalLines := l, height := h, trigger := t,
    offset :=
      if 0 < t ∧ (t ≠ s.trigger ∨ m' ≠ m) then m'
      else if m' ≠ m ∧ m' < s.offset then m'
      else s.offset }

/-- Mount: useState(maxScrollOffset); the mount run of both effects leaves it unchanged. -/
def initState (l h t : Int) : ScrollState :=
  { totalLines := l, height := h, trigger := t, offset := maxOffsetOf l h }

/-- One input event: a keyboard scroll delta or a prop update
(content change, resize, trigger increment, in any combination). -/
inductive Ev where
  | key (delta : Int)
  | props (totalLines height trigger : Int)
deriving DecidableEq

def step (s : ScrollState) : Ev → ScrollState
  | Ev.key d => scroll s d
  | Ev.props l h t => stepProps s l h t

def run (s : ScrollState) : List Ev → ScrollState
  | [] => s
  | e :: es => run (step s e) es

/-- The clamp invariant of the scroll state. -/
def Inv (s : ScrollState) : Prop := 0 ≤ s.offset ∧ s.offset ≤ s.maxOffset

/-- n repetitions of the same keyboard delta. -/
def iterKey (s : ScrollState) (d : Int) : Nat → ScrollState
  | 0 => s
  | n + 1 => iterKey (scroll s d) d n

/-! ## HeightIndex: cumulative line positions and the visible range
(ScrollArea.tsx, the `totalLines`/`linePositions` memo and the
`visibleItems` memo). -/

/-- The cumulative-position loop: `positions.push(cumulative); cumulative += itemHeights[i]`. -/
def positionsFrom (acc : Int) : List Int → List Int
  | [] => []
  | h :: t => acc :: positionsFrom (acc + h) t

/-- linePositions: position[i] = sum of heights of items [0, i). -/
def linePositions (hs : List Int) : List Int := positionsFrom 0 hs

/-- totalLines: the final value of `cumulative`. -/
def totalLinesOf (hs : List Int) : Int := hs.sum

/-- Specification-side position function: position[i] as a partial sum. -/
def posAt (hs : List Int) (i : Nat) : Int := (hs.take i).sum

/-- The firstVisible loop: scan positions and heights in parallel, return the
index of the first item with `linePositions[i] + itemHeights[i] > scrollOffset`;
if the loop never breaks, `firstVisible` keeps its initial value 0. -/
def firstVisAux (offset : Int) : List Int → List Int → Nat → Nat
  | p :: ps, h :: hrest, i =>
      if offset < p + h then i else firstVisAux offset ps hrest (i + 1)
  | _, _, _ => 0

/-- The lastVisible loop: starting at firstVisible, advance `lastVisible := i`
while `linePositions[i] < viewportEnd`, break at the first violation. -/
def lastVisAux (viewportEnd : Int) : List Int → Nat → Nat → Nat
  | [], _, last => last
  | p :: ps, i, last =>
      if viewportEnd ≤ p then last else lastVisAux viewportEnd ps (i + 1) i

/-- The (firstVisible, lastVisible) pair computed by the component. -/
def visibleRange (hs : List Int) (offset height : Int) : Nat × Nat :=
  let ps := linePositions hs
  let first := firstVisAux offset ps hs 0
  let last := lastVisAux (offset + height) (ps.drop first) first first
  (first, last)

/-- visibleItems: item-based fallback `children.slice(scrollOffset, scrollOffset + height)`
when no heights are provided, otherwise `children.slice(firstVisible, lastVisible + 1)`. -/
def visibleItems {α : Type} (children : List α) (hs : List Int) (offset height : Int) :
    List α :=
  if hs.isEmpty then (children.drop offset.toNat).take height.toNat
  else
    let r := visibleRange hs offset height
    (children.drop r.1).take (r.2 + 1 - r.1)

/-! ## ScrollbarRenderer (ScrollArea.tsx, the `scrollbar` memo).
The JS number arithmetic on the thumb is real-valued; it is modelled over ℚ. -/

/-- thumbHeight = Math.max(1, Math.floor((height / totalLines) * height)). -/
def thumbHeightOf (height totalLines : Int) : Int :=
  max 1 ⌊((height : ℚ) / (totalLines : ℚ)) * (height : ℚ)⌋

/-- scrollRatio = maxScrollOffset > 0 ? scrollOffset / maxScrollOffset : 0. -/
def scrollFrac (offset maxOff : Int) : ℚ :=
  if 0 < maxOff then (offset : ℚ) / (maxOff : ℚ) else 0

/-- thumbPosition = Math.floor(scrollRatio * (height - thumbHeight)). -/
def thumbPosOf (offset maxOff height totalLines : Int) : Int :=
  ⌊scrollFrac offset maxOff * ((height : ℚ) - (thumbHeightOf height totalLines : ℚ))⌋

/-- The scrollbar descriptor: `null` when `!needsScrollbar || !showScrollbar`,
with `needsScrollbar = totalLines > height`; otherwise (thumbPosition, thumbHeight). -/
def scrollbarDesc (showScrollbar : Bool) (height totalLines offset maxOff : Int) :
    Option (Int × Int) :=
  if height < totalLines ∧ showScrollbar = true then
    some (thumbPosOf offset maxOff height totalLines, thumbHeightOf height totalLines)
  else none

/-- isThumb = i >= thumbPosition && i < thumbPosition + thumbHeight. -/
def isThumbRow (thumbPos thumbHeight row : Int) : Prop :=
  thumbPos ≤ row ∧ row < thumbPos + thumbHeight

instance (tp th row : Int) : Decidable (isThumbRow tp th row) := by
  unfold isThumbRow; infer_instance

/-- The scrollbar column: one Bool (thumb or track) per row of
`for (let i = 0; i < height; i++)`. -/
def scrollbarRows (height thumbPos thumbHeight : Int) : List Bool :=
  (List.range height.toNat).map (fun i => decide (isThumbRow thumbPos thumbHeight (i : Int)))

/-! ## TextWrapper (src/components/Message.tsx: wrapText, calculateMessageHeight).
Strings are modelled as `List Char`; `text.split('\n')`, `lastIndexOf(' ', k)`
and `trimStart()` are embedded below. -/

/-- JS `text.split('\n')` on a char list. -/
def splitOnNl : List Char → List (List Char)
  | [] => [[]]
  | c :: rest =>
    if c = '\n' then [] :: splitOnNl rest
    else
      match splitOnNl rest with
      | [] => [[c]]
      | p :: ps => (c :: p) :: ps

/-- JS `cs.lastIndexOf(' ', k)`: the greatest index ≤ k holding a space
(searching downward from k), or none. -/
def lastSpaceIdx (cs : List Char) : Nat → Option Nat
  | 0 => if cs[0]? = some ' ' then some 0 else none
  | k + 1 => if cs[k + 1]? = some ' ' then some (k + 1) else lastSpaceIdx cs k

/-- breakPoint selection: `let breakPoint = maxWidth; if (lastSpace > 0) breakPoint = lastSpace`. -/
def breakPointOf (cs : List Char) (w : Nat) : Nat :=
  match lastSpaceIdx cs w with
  | some s => if 0 < s then s else w
  | none => w

/-- ECMAScript whitespace, the set stripped by JS `trimStart()`:
WhiteSpace (TAB, VT, FF, SP, NBSP, ZWNBSP and the Unicode Space_Separator
category U+1680, U+2000..U+200A, U+202F, U+205F, U+3000) together with
LineTerminator (LF, CR, LS U+2028, PS U+2029). -/
def jsWhitespace (c : Char) : Bool :=
  decide (c.val = 0x0009 ∨ c.val = 0x000A ∨ c.val = 0x000B ∨ c.val = 0x000C ∨
    c.val = 0x000D ∨ c.val = 0x0020 ∨ c.val = 0x00A0 ∨ c.val = 0x1680 ∨
    (0x2000 ≤ c.val ∧ c.val ≤ 0x200A) ∨ c.val = 0x2028 ∨ c.val = 0x2029 ∨
    c.val = 0x202F ∨ c.val = 0x205F ∨ c.val = 0x3000 ∨ c.val = 0xFEFF)

/-- The paragraph wrap loop, fuelled for totality; `wrapPara` supplies fuel
`remaining.length`, which suffices whenever `1 ≤ w` (each pass consumes at
least one character, as in the source where `maxWidth ≥ 1` is guaranteed by
the guard in `wrapText`).  `remaining.slice(breakPoint).trimStart()` is
embedded as dropping leading `jsWhitespace` characters. -/
def wrapParaAux (w : Nat) : Nat → List Char → List (List Char)
  | 0, _ => []
  | fuel + 1, remaining =>
    if remaining.isEmpty then []
    else if remaining.length ≤ w then [remaining]
    else
      let bp := breakPointOf remaining w
      remaining.take bp ::
        wrapParaAux w fuel ((remaining.drop bp).dropWhile jsWhitespace)

def wrapPara (w : Nat) (cs : List Char) : List (List Char) := wrapParaAux w cs.length cs

/-- wrapText: `if (maxWidth <= 0) return [text]`, else wrap each paragraph
(an empty paragraph contributes one empty line). -/
def wrapText (text : List Char) (maxWidth : Int) : List (List Char) :=
  if maxWidth ≤ 0 then [text]
  else
    ((splitOnNl text).map
      (fun p => if p.isEmpty then [[]] else wrapPara maxWidth.toNat p)).flatten

/-- calculateMessageHeight: prefixLen = PADDING_X + INDICATOR.length = 1 + 2;
contentWidth = Math.max(1, width - prefixLen); wrapped lines + 2 + 1. -/
def calculateMessageHeight (content : List Char) (width : Int) : Int :=
  let prefixLen : Int := 1 + 2
  let contentWidth : Int := max 1 (width - prefixLen)
  ((wrapText content contentWidth).length : Int) + 2 + 1

/-- Joining line (or word) lists with single spaces; used to state the
wrap round-trip property. -/
def unwords : List (List Char) → List Char
  | [] => []
  | [u] => u
  | u :: rest => u ++ ' ' :: unwords rest

/-- Greedy split of a word sequence into the words that fit on the first
wrapped line (within the remaining budget) and the rest; proof-side helper
for the wrap round-trip. -/
def splitFit : Nat → List (List Char) → List (List Char) × List (List Char)
  | _, [] => ([], [])
  | rem, u :: vs =>
    if u.length ≤ rem then
      let p := splitFit (rem - u.length - 1) vs
      (u :: p.1, p.2)
    else ([], u :: vs)

/-- A word suitable for the wrap round-trip: nonempty, free of ECMAScript
whitespace, fits in the width. -/
def GoodWord (w : Nat) (u : List Char) : Prop :=
  u ≠ [] ∧ u.length ≤ w ∧ ∀ c ∈ u, jsWhitespace c = false

instance (w : Nat) (u : List Char) : Decidable (GoodWord w u) := by
  unfold GoodWord
  infer_instance

/-- Count of leading list entries below v; proof-side helper describing how
far the lastVisible loop advances. -/
def countLt (v : Int) : List Int → Nat
  | [] => 0
  | p :: ps => if p < v then countLt v ps + 1 else 0

/-! ## Specification-side definitions (written from spec.md §4.4,
ScrollbarRenderer), to be compared with the source-derived ones. -/

/-- Spec: thumbHeight = max(1, floor((viewportHeight / totalLines) * viewportHeight)). -/
def specThumbHeight (viewportHeight totalLines : Int) : Int :=
  max 1 ⌊((viewportHeight : ℚ) / (totalLines : ℚ)) * (viewportHeight : ℚ)⌋

/-- Spec: scrollRatio = maxOffsetLines > 0 ? offsetLines / maxOffsetLines : 0. -/
def specScrollFrac (offsetLines maxOffsetLines : Int) : ℚ :=
  if 0 < maxOffsetLines then (offsetLines : ℚ) / (maxOffsetLines : ℚ) else 0

/-- Spec: thumbStart = floor(scrollRatio * (viewportHeight - thumbHeight)). -/
def specThumbStart (offsetLines maxOffsetLines viewportHeight totalLines : Int) : Int :=
  ⌊specScrollFrac offsetLines maxOffsetLines *
    ((viewportHeight : ℚ) - (specThumbHeight viewportHeight totalLines : ℚ))⌋

/-! ## Lemmas and claim theorems -/

lemma scroll_totalLines (s : ScrollState) (d : Int) : (scroll s d).totalLines = s.totalLines := rfl

lemma scroll_height (s : ScrollState) (d : Int) : (scroll s d).height = s.height := rfl

lemma scroll_maxOffset (s : ScrollState) (d : Int) : (scroll s d).maxOffset = s.maxOffset := rfl

lemma maxOffsetOf_nonneg (l h : Int) : 0 ≤ maxOffsetOf l h := le_max_left 0 _

lemma inv_initState (l h t : Int) : Inv (initState l h t) :=
  ⟨maxOffsetOf_nonneg l h, le_refl _⟩

lemma inv_scroll (s : ScrollState) (d : Int) (hs : Inv s) : Inv (scroll s d) := by
  refine ⟨le_max_left 0 _, ?_⟩
  have h0 : 0 ≤ s.maxOffset := le_trans hs.1 hs.2
  simp only [scroll, ScrollState.maxOffset] at *
  omega

lemma inv_stepProps (s : ScrollState) (l h t : Int) (hs : Inv s) : Inv (stepProps s l h t) := by
  rcases hs with ⟨h1, h2⟩
  simp only [Inv, ScrollState.maxOffset, maxOffsetOf, stepProps] at *
  split_ifs <;> refine ⟨?_, ?_⟩ <;> omega

lemma inv_step (s : ScrollState) (e : Ev) (hs : Inv s) : Inv (step s e) := by
  cases e with
  | key d => exact inv_scroll s d hs
  | props l h t => exact inv_stepProps s l h t hs

lemma inv_run (s : ScrollState) (evs : List Ev) (hs : Inv s) : Inv (run s evs) := by
  induction evs generalizing s with
  | nil => exact hs
  | cons e es ih => exact ih (step s e) (inv_step s e hs)

lemma iterKey_up (n : Nat) :
    ∀ s : ScrollState, Inv s → (iterKey s (-1) n).offset = max 0 (s.offset - n) := by
  induction n with
  | zero =>
    intro s hs
    rcases hs with ⟨h1, h2⟩
    simp only [iterKey, Nat.cast_zero, sub_zero]
    omega
  | succ k ih =>
    intro s hs
    have hstep : Inv (scroll s (-1)) := inv_scroll s (-1) hs
    rw [iterKey, ih (scroll s (-1)) hstep]
    rcases hs with ⟨h1, h2⟩
    simp only [Inv, scroll, ScrollState.maxOffset, maxOffsetOf] at *
    push_cast
    omega

lemma iterKey_down (n : Nat) :
    ∀ s : ScrollState, Inv s → (iterKey s 1 n).offset = min s.maxOffset (s.offset + n) := by
  induction n with
  | zero =>
    intro s hs
    rcases hs with ⟨h1, h2⟩
    simp only [iterKey, Nat.cast_zero, add_zero]
    omega
  | succ k ih =>
    intro s hs
    have hstep : Inv (scroll s 1) := inv_scroll s 1 hs
    rw [iterKey, ih (scroll s 1) hstep, scroll_maxOffset]
    rcases hs with ⟨h1, h2⟩
    simp only [Inv, scroll, ScrollState.maxOffset, maxOffsetOf] at *
    push_cast
    omega

/-- C1: the claim says the jump to bottom is edge-triggered purely on the
trigger counter: an update whose trigger value is unchanged (e.g. only the
content grew) must never reset offsetLines to maxOffsetLines.  The code
violates this: the jump effect lists maxScrollOffset among its dependencies,
so once the trigger is positive, any update changing maxScrollOffset re-runs
the effect and jumps.  Trace: 10 lines, viewport 3, user sends a message
(trigger 0→1, pinned at 7), scrolls up 3 lines to offset 4, then an
assistant reply grows the content to 12 lines with the trigger unchanged:
the code jumps to the new maxOffset 9 instead of staying at 4 (the behaviour
its own docs/scroll-behavior.md requires).  The same props delivered again
are a no-op (last conjunct), so only the edge-triggering on content change
is broken. -/
theorem C1_assistant_reply_refires_jump :
    run (initState 10 3 0) [Ev.props 10 3 1, Ev.key (-3), Ev.props 12 3 1] =
      (⟨12, 3, 1, 9⟩ : ScrollState) ∧
    (run (initState 10 3 0) [Ev.props 10 3 1, Ev.key (-3)]).offset = 4 ∧
    (run (initState 10 3 0) [Ev.props 10 3 1, Ev.key (-3)]).trigger = 1 ∧
    maxOffsetOf 12 3 = 9 ∧
    stepProps (⟨12, 3, 1, 9⟩ : ScrollState) 12 3 1 = (⟨12, 3, 1, 9⟩ : ScrollState) := by
  decide

/-- C2: the claim says a content change without a trigger change recomputes
maxOffsetLines and leaves offsetLines unchanged whenever it does not exceed
the new maximum.  The code violates this whenever the trigger counter is
positive: growing the content from 10 to 15 lines with the trigger stuck at
1 moves a user scrolled up to offset 2 down to the new maxOffset 12, because
the jump effect re-fires on the maxScrollOffset dependency change. -/
theorem C2_content_growth_moves_scrolled_up_user :
    (run (initState 10 3 0) [Ev.props 10 3 1, Ev.key (-5)]).offset = 2 ∧
    (run (initState 10 3 0) [Ev.props 10 3 1, Ev.key (-5), Ev.props 15 3 1]).offset = 12 ∧
    (2 : Int) ≤ maxOffsetOf 15 3 := by
  decide

/-- C3: from the initial bottom-pinned state, after any sequence of events
(keyboard deltas and prop updates carrying content changes, resizes and
trigger changes) the invariant 0 ≤ offsetLines ≤ maxOffsetLines =
max(0, totalLines − viewportHeight) holds; and scrollBy saturates exactly at
the boundaries: n repetitions of scrollBy(−1) from any state satisfying the
invariant leave offset max(0, offset − n) (hence exactly 0 once n ≥ offset),
and n repetitions of scrollBy(+1) leave min(maxOffset, offset + n) (hence
exactly maxOffset once n ≥ maxOffset − offset). -/
theorem C3_clamp_invariant_and_saturation :
    (∀ (l h t : Int) (evs : List Ev),
        0 ≤ (run (initState l h t) evs).offset ∧
        (run (initState l h t) evs).offset ≤
          maxOffsetOf (run (initState l h t) evs).totalLines
            (run (initState l h t) evs).height) ∧
    (∀ (s : ScrollState) (n : Nat), Inv s →
        (iterKey s (-1) n).offset = max 0 (s.offset - n) ∧
        (s.offset ≤ n → (iterKey s (-1) n).offset = 0)) ∧
    (∀ (s : ScrollState) (n : Nat), Inv s →
        (iterKey s 1 n).offset = min s.maxOffset (s.offset + n) ∧
        (s.maxOffset ≤ s.offset + n → (iterKey s 1 n).offset = s.maxOffset)) := by
  refine ⟨?_, ?_, ?_⟩
  · intro l h t evs
    have h1 := inv_run (initState l h t) evs (inv_initState l h t)
    exact ⟨h1.1, h1.2⟩
  · intro s n hs
    have h1 := iterKey_up n s hs
    refine ⟨h1, fun hle => ?_⟩
    rw [h1]
    omega
  · intro s n hs
    have h1 := iterKey_down n s hs
    refine ⟨h1, fun hle => ?_⟩
    rw [h1]
    omega

/-- Witness for C3 at concrete inputs: a two-event trace from (10, 3, 0), and
9 repeated scrolls in both directions from the bottom-pinned state. -/
theorem C3_clamp_invariant_and_saturation_witness :
    (0 ≤ (run (initState 10 3 0) [Ev.key (-1), Ev.props 12 4 1]).offset ∧
      (run (initState 10 3 0) [Ev.key (-1), Ev.props 12 4 1]).offset ≤
        maxOffsetOf (run (initState 10 3 0) [Ev.key (-1), Ev.props 12 4 1]).totalLines
          (run (initState 10 3 0) [Ev.key (-1), Ev.props 12 4 1]).height) ∧
    (iterKey (⟨10, 3, 0, 7⟩ : ScrollState) (-1) 9).offset = 0 ∧
    (iterKey (⟨10, 3, 0, 2⟩ : ScrollState) 1 9).offset =
      (⟨10, 3, 0, 2⟩ : ScrollState).maxOffset := by
  refine ⟨C3_clamp_invariant_and_saturation.1 10 3 0 [Ev.key (-1), Ev.props 12 4 1], ?_, ?_⟩
  · exact (C3_clamp_invariant_and_saturation.2.1 (⟨10, 3, 0, 7⟩ : ScrollState) 9
      (by constructor <;> decide)).2 (by decide)
  · exact (C3_clamp_invariant_and_saturation.2.2 (⟨10, 3, 0, 2⟩ : ScrollState) 9
      (by constructor <;> decide)).2 (by decide)

lemma thumbHeightOf_le (h t : Int) (h1 : 1 ≤ h) (h2 : h < t) : thumbHeightOf h t ≤ h := by
  unfold thumbHeightOf
  have ht0 : (0 : ℚ) < (t : ℚ) := by exact_mod_cast (by omega : (0 : Int) < t)
  have hh0 : (0 : ℚ) < (h : ℚ) := by exact_mod_cast (by omega : (0 : Int) < h)
  have hlt : (h : ℚ) / (t : ℚ) < 1 := (div_lt_one ht0).2 (by exact_mod_cast h2)
  have hq : (h : ℚ) / (t : ℚ) * (h : ℚ) < (h : ℚ) := by
    calc (h : ℚ) / (t : ℚ) * (h : ℚ) < 1 * (h : ℚ) := mul_lt_mul_of_pos_right hlt hh0
    _ = (h : ℚ) := one_mul _
  have hfl : ⌊(h : ℚ) / (t : ℚ) * (h : ℚ)⌋ < h := Int.floor_lt.2 (by exact_mod_cast hq)
  exact max_le h1 (by omega)

lemma scrollFrac_nonneg (o m : Int) (ho : 0 ≤ o) : 0 ≤ scrollFrac o m := by
  unfold scrollFrac
  split
  · exact div_nonneg (by exact_mod_cast ho) (by rename_i hm; exact_mod_cast le_of_lt hm)
  · exact le_refl 0

lemma scrollFrac_le_one (o m : Int) (hom : o ≤ m) : scrollFrac o m ≤ 1 := by
  unfold scrollFrac
  split
  · rename_i hm
    exact (div_le_one (by exact_mod_cast hm)).2 (by exact_mod_cast hom)
  · exact zero_le_one

/-- C7: the scrollbar descriptor is emitted exactly when totalLines >
viewportHeight (with the scrollbar enabled, its default); when emitted its
components equal the spec's formulas thumbHeight = max(1,
floor((viewportHeight/totalLines)·viewportHeight)) and thumbStart =
floor(scrollRatio·(viewportHeight − thumbHeight)) with scrollRatio =
offsetLines/maxOffsetLines if maxOffsetLines > 0 else 0; when not visible,
neither thumb nor track is emitted. -/
theorem C7_scrollbar_descriptor_formulas :
    ∀ (totalLines viewportHeight offsetLines maxOffsetLines : Int),
      ((scrollbarDesc true viewportHeight totalLines offsetLines maxOffsetLines).isSome ↔
        viewportHeight < totalLines) ∧
      (viewportHeight < totalLines →
        scrollbarDesc true viewportHeight totalLines offsetLines maxOffsetLines =
          some (specThumbStart offsetLines maxOffsetLines viewportHeight totalLines,
                specThumbHeight viewportHeight totalLines)) ∧
      (¬ viewportHeight < totalLines →
        scrollbarDesc true viewportHeight totalLines offsetLines maxOffsetLines = none) := by
  intro t h o m
  refine ⟨?_, ?_, ?_⟩
  · by_cases hc : h < t <;>
      simp [scrollbarDesc, hc]
  · intro hc
    simp only [scrollbarDesc, hc, true_and, if_pos, and_self, ite_true,
      specThumbStart, specThumbHeight, specScrollFrac, thumbPosOf, thumbHeightOf, scrollFrac]
  · intro hc
    simp [scrollbarDesc, hc]

/-- Witness for C7 at totalLines 10, viewport 3, offset 2, maxOffset 7. -/
theorem C7_scrollbar_descriptor_formulas_witness :
    ((scrollbarDesc true 3 10 2 7).isSome ↔ (3 : Int) < 10) ∧
    scrollbarDesc true 3 10 2 7 = some (specThumbStart 2 7 3 10, specThumbHeight 3 10) := by
  refine ⟨(C7_scrollbar_descriptor_formulas 10 3 2 7).1, ?_⟩
  exact (C7_scrollbar_descriptor_formulas 10 3 2 7).2.1 (by decide)

/-- C10: whenever the scrollbar is emitted (totalLines > viewportHeight ≥ 1)
and 0 ≤ offsetLines ≤ maxOffsetLines, the thumb lies within the track:
thumbHeight ≥ 1, thumbStart ≥ 0, thumbStart + thumbHeight ≤ viewportHeight,
and every thumb row index lies in [0, viewportHeight). -/
theorem C10_thumb_within_track :
    ∀ (totalLines viewportHeight offsetLines maxOffsetLines : Int),
      1 ≤ viewportHeight → viewportHeight < totalLines →
      0 ≤ offsetLines → offsetLines ≤ maxOffsetLines →
      1 ≤ thumbHeightOf viewportHeight totalLines ∧
      0 ≤ thumbPosOf offsetLines maxOffsetLines viewportHeight totalLines ∧
      thumbPosOf offsetLines maxOffsetLines viewportHeight totalLines +
          thumbHeightOf viewportHeight totalLines ≤ viewportHeight ∧
      (∀ row : Int,
        isThumbRow (thumbPosOf offsetLines maxOffsetLines viewportHeight totalLines)
          (thumbHeightOf viewportHeight totalLines) row →
        0 ≤ row ∧ row < viewportHeight) := by
  intro t h o m h1 h2 h3 h4
  have hth1 : 1 ≤ thumbHeightOf h t := le_max_left 1 _
  have hthh : thumbHeightOf h t ≤ h := thumbHeightOf_le h t h1 h2
  have hf0 : 0 ≤ scrollFrac o m := scrollFrac_nonneg o m h3
  have hf1 : scrollFrac o m ≤ 1 := scrollFrac_le_one o m h4
  have hsub : (0 : ℚ) ≤ (h : ℚ) - (thumbHeightOf h t : ℚ) := by
    have : ((thumbHeightOf h t : Int) : ℚ) ≤ ((h : Int) : ℚ) := by exact_mod_cast hthh
    linarith
  have hpos0 : 0 ≤ thumbPosOf o m h t := by
    unfold thumbPosOf
    exact Int.floor_nonneg.2 (mul_nonneg hf0 hsub)
  have hposle : thumbPosOf o m h t ≤ h - thumbHeightOf h t := by
    unfold thumbPosOf
    have hx : scrollFrac o m * ((h : ℚ) - (thumbHeightOf h t : ℚ)) ≤
        ((h - thumbHeightOf h t : Int) : ℚ) := by
      push_cast
      exact mul_le_of_le_one_left hsub hf1
    calc ⌊scrollFrac o m * ((h : ℚ) - (thumbHeightOf h t : ℚ))⌋
        ≤ ⌊((h - thumbHeightOf h t : Int) : ℚ)⌋ := Int.floor_le_floor hx
    _ = h - thumbHeightOf h t := Int.floor_intCast _
  refine ⟨hth1, hpos0, by omega, ?_⟩
  intro row hrow
  rcases hrow with ⟨hr1, hr2⟩
  omega

/-- Witness for C10 at totalLines 10, viewport 3, offset 2, maxOffset 7. -/
theorem C10_thumb_within_track_witness :
    1 ≤ thumbHeightOf 3 10 ∧
    0 ≤ thumbPosOf 2 7 3 10 ∧
    thumbPosOf 2 7 3 10 + thumbHeightOf 3 10 ≤ 3 ∧
    (∀ row : Int, isThumbRow (thumbPosOf 2 7 3 10) (thumbHeightOf 3 10) row →
      0 ≤ row ∧ row < 3) :=
  C10_thumb_within_track 10 3 2 7 (by decide) (by decide) (by decide) (by decide)

lemma firstVisAux_lt_or_zero (offset : Int) :
    ∀ (ps hs : List Int) (i : Nat),
      firstVisAux offset ps hs i < i + hs.length ∨ firstVisAux offset ps hs i = 0 := by
  intro ps
  induction ps with
  | nil => intro hs i; right; rfl
  | cons p pt ih =>
    intro hs i
    cases hs with
    | nil => right; rfl
    | cons h ht =>
      by_cases hc : offset < p + h
      · left
        simp only [firstVisAux, if_pos hc, List.length_cons]
        omega
      · rcases ih ht (i + 1) with h1 | h1 <;>
          simp only [firstVisAux, if_neg hc, List.length_cons]
        · left; omega
        · right; exact h1

lemma length_positionsFrom (acc : Int) (hs : List Int) :
    (positionsFrom acc hs).length = hs.length := by
  induction hs generalizing acc with
  | nil => rfl
  | cons h t ih => simp [positionsFrom, ih]

lemma firstVis_lt_length (offset : Int) (hs : List Int) (hne : hs ≠ []) :
    firstVisAux offset (linePositions hs) hs 0 < hs.length := by
  rcases firstVisAux_lt_or_zero offset (linePositions hs) hs 0 with h1 | h1
  · omega
  · rw [h1]
    exact List.length_pos.2 hne

lemma lastVisAux_ge (v : Int) :
    ∀ (ps : List Int) (i last : Nat), last ≤ i → last ≤ lastVisAux v ps i last := by
  intro ps
  induction ps with
  | nil => intro i last h; exact le_refl last
  | cons p pt ih =>
    intro i last h
    by_cases hc : v ≤ p
    · simp only [lastVisAux, if_pos hc]
      exact le_refl last
    · simp only [lastVisAux, if_neg hc]
      exact le_trans h (ih (i + 1) i (Nat.le_succ i))

/-- The claim says a degenerate viewport height yields an empty visible
slice and no scrollbar.  False on the line-based path: with one item of
height 2 and viewportHeight 0, the slice still holds the first visible item,
and the scrollbar descriptor is emitted since totalLines > viewportHeight. -/
theorem C8_counterexample :
    visibleItems [0] [2] 0 0 ≠ ([] : List Nat) ∧
    (scrollbarDesc true 0 2 0 2).isSome = true := by
  constructor
  · decide
  · simp [scrollbarDesc]

/-- C8 amended: viewportHeight ≤ 0 never fails; the item-based fallback
slice is empty; but the line-based slice always retains at least the first
visible item (never empty for a nonempty item sequence), no scrollbar rows
are drawn (the row loop is empty), and the scrollbar descriptor is emitted
exactly when totalLines > viewportHeight with the scrollbar enabled. -/
theorem C8_amended_degenerate_viewport :
    (∀ (α : Type) (children : List α) (offset height : Int),
        height ≤ 0 → visibleItems children ([] : List Int) offset height = []) ∧
    (∀ (α : Type) (children : List α) (hs : List Int) (offset height : Int),
        hs ≠ [] → children.length = hs.length →
        visibleItems children hs offset height ≠ []) ∧
    (∀ (height thumbPos thumbHeight : Int),
        height ≤ 0 → scrollbarRows height thumbPos thumbHeight = []) ∧
    (∀ (sb : Bool) (height totalLines offset maxOff : Int),
        (scrollbarDesc sb height totalLines offset maxOff).isSome ↔
          (height < totalLines ∧ sb = true)) := by
  refine ⟨?_, ?_, ?_, ?_⟩
  · intro α children offset height hh
    simp only [visibleItems, List.isEmpty_nil, if_pos]
    rw [Int.toNat_of_nonpos hh]
    simp
  · intro α children hs offset height hne hlen
    have hfirst : firstVisAux offset (linePositions hs) hs 0 < hs.length :=
      firstVis_lt_length offset hs hne
    have hlast :
        firstVisAux offset (linePositions hs) hs 0 ≤
          lastVisAux (offset + height)
            ((linePositions hs).drop (firstVisAux offset (linePositions hs) hs 0))
            (firstVisAux offset (linePositions hs) hs 0)
            (firstVisAux offset (linePositions hs) hs 0) :=
      lastVisAux_ge (offset + height) _ _ _ (le_refl _)
    have hempty : hs.isEmpty = false := by
      cases hs with
      | nil => exact absurd rfl hne
      | cons a b => rfl
    simp only [visibleItems, hempty, Bool.false_eq_true, if_false, visibleRange]
    intro hcontra
    have hlength := congrArg List.length hcontra
    simp only [List.length_take, List.length_drop, List.length_nil] at hlength
    omega
  · intro height tp th hh
    unfold scrollbarRows
    rw [Int.toNat_of_nonpos hh]
    rfl
  · intro sb height totalLines offset maxOff
    by_cases hc : height < totalLines ∧ sb = true <;> simp [scrollbarDesc, hc]

/-- Witness for C8 amended at concrete degenerate inputs. -/
theorem C8_amended_degenerate_viewport_witness :
    visibleItems ([] : List Nat) ([] : List Int) 5 0 = [] ∧
    visibleItems [0] [2] 0 0 ≠ ([] : List Nat) ∧
    scrollbarRows 0 0 1 = [] ∧
    ((scrollbarDesc true 0 2 0 2).isSome ↔ ((0 : Int) < 2 ∧ true = true)) :=
  ⟨C8_amended_degenerate_viewport.1 Nat [] 5 0 (by decide),
   C8_amended_degenerate_viewport.2.1 Nat [0] [2] 0 0 (by decide) (by decide),
   C8_amended_degenerate_viewport.2.2.1 0 0 1 (by decide),
   C8_amended_degenerate_viewport.2.2.2 true 0 2 0 2⟩

lemma wrapParaAux_succ (w fuel : Nat) (cs : List Char) :
    wrapParaAux w (fuel + 1) cs =
      if cs.isEmpty then []
      else if cs.length ≤ w then [cs]
      else cs.take (breakPointOf cs w) ::
        wrapParaAux w fuel ((cs.drop (breakPointOf cs w)).dropWhile jsWhitespace) := rfl

lemma lastSpaceIdx_le (cs : List Char) : ∀ k s, lastSpaceIdx cs k = some s → s ≤ k := by
  intro k
  induction k with
  | zero =>
    intro s h
    simp only [lastSpaceIdx] at h
    split at h
    · exact le_of_eq (by injection h; omega)
    · exact absurd h (by simp)
  | succ j ih =>
    intro s h
    simp only [lastSpaceIdx] at h
    split at h
    · injection h with h'; omega
    · exact le_trans (ih s h) (Nat.le_succ j)

lemma breakPointOf_le (cs : List Char) (w : Nat) : breakPointOf cs w ≤ w := by
  unfold breakPointOf
  rcases h : lastSpaceIdx cs w with _ | s
  · exact le_refl w
  · dsimp only
    split
    · exact lastSpaceIdx_le cs w s h
    · exact le_refl w

lemma breakPointOf_pos (cs : List Char) (w : Nat) (hw : 1 ≤ w) : 1 ≤ breakPointOf cs w := by
  unfold breakPointOf
  rcases h : lastSpaceIdx cs w with _ | s
  · exact hw
  · dsimp only
    split
    · omega
    · exact hw

lemma wrapParaAux_line_le (w : Nat) :
    ∀ (fuel : Nat) (cs l : List Char), l ∈ wrapParaAux w fuel cs → l.length ≤ w := by
  intro fuel
  induction fuel with
  | zero => intro cs l h; exact absurd h (by simp [wrapParaAux])
  | succ f ih =>
    intro cs l h
    rw [wrapParaAux_succ] at h
    split at h
    · exact absurd h (by simp)
    · split at h
      · rename_i hle
        rcases List.mem_singleton.1 h with rfl
        exact hle
      · rcases List.mem_cons.1 h with rfl | h2
        · rw [List.length_take]
          exact le_trans (min_le_left _ _) (breakPointOf_le cs w)
        · exact ih _ l h2

lemma wrapPara_head_break (cs : List Char) (w : Nat) (hw : 1 ≤ w) (hlen : w < cs.length) :
    (wrapPara w cs).head? = some (cs.take (breakPointOf cs w)) := by
  have hne : ¬ cs.isEmpty = true := by
    cases cs with
    | nil => simp at hlen
    | cons a b => simp
  obtain ⟨n, hn⟩ : ∃ n, cs.length = n + 1 := ⟨cs.length - 1, by omega⟩
  rw [wrapPara, hn, wrapParaAux_succ, if_neg hne, if_neg (by omega)]
  rfl

/-- The claim says the break is placed at the last space at or before
position maxWidth whenever one exists.  The code ignores a space at index 0
(`if (lastSpace > 0)`): on input " abc" with maxWidth 2 the last space at or
before position 2 sits at index 0, yet the emitted first line is " a" — a
hard break at exactly maxWidth, not a break at that space (which would have
produced the empty prefix). -/
theorem C5_counterexample :
    lastSpaceIdx [' ', 'a', 'b', 'c'] 2 = some 0 ∧
    wrapText [' ', 'a', 'b', 'c'] 2 = [[' ', 'a'], ['b', 'c']] ∧
    List.take 0 [' ', 'a', 'b', 'c'] ≠ [' ', 'a'] := by
  decide

/-- C5 amended: for maxWidth ≥ 1 every wrapped line has length ≤ maxWidth;
when the remaining paragraph exceeds maxWidth the break is placed at the
last space at or before position maxWidth provided that space has positive
index, and when no space occurs at positions 1..maxWidth (none at all, or
only at index 0) the line is hard-broken at exactly maxWidth characters. -/
theorem C5_amended_wrap_breaks :
    (∀ (text : List Char) (w : Int), 1 ≤ w →
        ∀ l ∈ wrapText text w, l.length ≤ w.toNat) ∧
    (∀ (cs : List Char) (w s : Nat), 1 ≤ w → w < cs.length →
        lastSpaceIdx cs w = some s → 0 < s →
        (wrapPara w cs).head? = some (cs.take s)) ∧
    (∀ (cs : List Char) (w : Nat), 1 ≤ w → w < cs.length →
        (lastSpaceIdx cs w = none ∨ lastSpaceIdx cs w = some 0) →
        (wrapPara w cs).head? = some (cs.take w) ∧ (cs.take w).length = w) := by
  refine ⟨?_, ?_, ?_⟩
  · intro text w hw l hl
    rw [wrapText, if_neg (by omega)] at hl
    rcases List.mem_flatten.1 hl with ⟨block, hb, hlb⟩
    rcases List.mem_map.1 hb with ⟨p, hp, rfl⟩
    by_cases hpe : p.isEmpty
    · rw [if_pos hpe] at hlb
      rcases List.mem_singleton.1 hlb with rfl
      simp
    · rw [if_neg hpe] at hlb
      exact wrapParaAux_line_le w.toNat p.length p l hlb
  · intro cs w s hw hlen hsp hspos
    rw [wrapPara_head_break cs w hw hlen]
    congr 1
    unfold breakPointOf
    rw [hsp]
    simp [hspos]
  · intro cs w hw hlen hsp
    have hbp : breakPointOf cs w = w := by
      unfold breakPointOf
      rcases hsp with h | h <;> rw [h]
      simp
    refine ⟨?_, ?_⟩
    · rw [wrapPara_head_break cs w hw hlen, hbp]
    · rw [List.length_take]
      omega

/-- Witness for C5 amended: line bound on wrapText "abcd" 2; space break on
"ab cd" at the space index 2; hard break on "abcd" at exactly 2. -/
theorem C5_amended_wrap_breaks_witness :
    (∀ l ∈ wrapText ['a', 'b', 'c', 'd'] 2, l.length ≤ (2 : Int).toNat) ∧
    (wrapPara 2 ['a', 'b', ' ', 'c', 'd']).head? =
      some (List.take 2 ['a', 'b', ' ', 'c', 'd']) ∧
    ((wrapPara 2 ['a', 'b', 'c', 'd']).head? = some (List.take 2 ['a', 'b', 'c', 'd']) ∧
      (List.take 2 ['a', 'b', 'c', 'd']).length = 2) :=
  ⟨C5_amended_wrap_breaks.1 ['a', 'b', 'c', 'd'] 2 (by decide),
   C5_amended_wrap_breaks.2.1 ['a', 'b', ' ', 'c', 'd'] 2 2 (by decide) (by decide)
     (by decide) (by decide),
   C5_amended_wrap_breaks.2.2 ['a', 'b', 'c', 'd'] 2 (by decide) (by decide)
     (Or.inl (by decide))⟩

/-- The claim says maxWidth ≤ 0 behaves exactly as maxWidth = 1.  It does
not: wrapText returns the whole text as one unwrapped line. -/
theorem C6_counterexample :
    wrapText ['a', 'b'] 0 = [['a', 'b']] ∧
    wrapText ['a', 'b'] 1 = [['a'], ['b']] ∧
    wrapText ['a', 'b'] 0 ≠ wrapText ['a', 'b'] 1 := by
  decide

/-- C6 amended: wrapText with maxWidth ≤ 0 returns the entire text as a
single line (degenerate but defined, no failure); the minimum-width-1
guarantee lives in the caller calculateMessageHeight, which clamps the
content width to max(1, width − 3) ≥ 1 before wrapping. -/
theorem C6_amended_degenerate_width :
    (∀ (text : List Char) (w : Int), w ≤ 0 → wrapText text w = [text]) ∧
    (∀ (content : List Char) (width : Int),
        1 ≤ max 1 (width - 3) ∧
        calculateMessageHeight content width =
          ((wrapText content (max 1 (width - 3))).length : Int) + 3) := by
  constructor
  · intro text w hw
    rw [wrapText, if_pos hw]
  · intro content width
    refine ⟨le_max_left 1 _, ?_⟩
    unfold calculateMessageHeight
    norm_num
    ring

/-- Witness for C6 amended at maxWidth −4 and message width 10. -/
theorem C6_amended_degenerate_width_witness :
    wrapText ['a', 'b'] (-4) = [['a', 'b']] ∧
    (1 ≤ max 1 ((10 : Int) - 3) ∧
      calculateMessageHeight ['h', 'i'] 10 =
        ((wrapText ['h', 'i'] (max 1 ((10 : Int) - 3))).length : Int) + 3) :=
  ⟨C6_amended_degenerate_width.1 ['a', 'b'] (-4) (by decide),
   C6_amended_degenerate_width.2 ['h', 'i'] 10⟩

lemma positionsFrom_drop :
    ∀ (hs : List Int) (k : Nat) (a : Int),
      (positionsFrom a hs).drop k = positionsFrom (a + (hs.take k).sum) (hs.drop k) := by
  intro hs
  induction hs with
  | nil => intro k a; simp [positionsFrom]
  | cons h t ih =>
    intro k a
    cases k with
    | zero => simp [positionsFrom]
    | succ k' =>
      simp only [positionsFrom, List.drop_succ_cons, List.take_succ_cons, List.sum_cons]
      rw [ih k' (a + h), add_assoc]

lemma positionsFrom_getD :
    ∀ (hs : List Int) (k : Nat) (a : Int), k < hs.length →
      (positionsFrom a hs).getD k 0 = a + (hs.take k).sum := by
  intro hs
  induction hs with
  | nil => intro k a hk; simp at hk
  | cons h t ih =>
    intro k a hk
    cases k with
    | zero => simp [positionsFrom]
    | succ k' =>
      simp only [positionsFrom, List.getD_cons_succ, List.take_succ_cons, List.sum_cons]
      rw [ih k' (a + h) (by simpa using hk)]
      ring

lemma sum_take_succ_getD :
    ∀ (hs : List Int) (k : Nat), k < hs.length →
      (hs.take (k + 1)).sum = (hs.take k).sum + hs.getD k 0 := by
  intro hs
  induction hs with
  | nil => intro k hk; simp at hk
  | cons h t ih =>
    intro k hk
    cases k with
    | zero => simp
    | succ k' =>
      simp only [List.take_succ_cons, List.sum_cons, List.getD_cons_succ]
      rw [ih k' (by simpa using hk)]
      ring

lemma posAt_succ (hs : List Int) (k : Nat) (hk : k < hs.length) :
    posAt hs (k + 1) = posAt hs k + hs.getD k 0 := sum_take_succ_getD hs k hk

lemma posAt_length (hs : List Int) : posAt hs hs.length = totalLinesOf hs := by
  unfold posAt totalLinesOf
  rw [List.take_length]

lemma getD_pos (hs : List Int) (hpos : ∀ x ∈ hs, 0 < x) (k : Nat) (hk : k < hs.length) :
    0 < hs.getD k 0 := by
  rw [List.getD_eq_getElem hs 0 hk]
  exact hpos _ (List.getElem_mem hk)

lemma posAt_le_posAt (hs : List Int) (hpos : ∀ x ∈ hs, 0 < x) :
    ∀ j k : Nat, j ≤ k → k ≤ hs.length → posAt hs j ≤ posAt hs k := by
  intro j k
  induction k with
  | zero =>
    intro hjk _
    have hj0 : j = 0 := by omega
    rw [hj0]
  | succ k' ih =>
    intro hjk hk
    rcases Nat.lt_or_ge j (k' + 1) with hlt | hge
    · have h1 : posAt hs j ≤ posAt hs k' := ih (by omega) (by omega)
      have h2 := getD_pos hs hpos k' (by omega)
      have h3 := posAt_succ hs k' (by omega)
      omega
    · have hj : j = k' + 1 := by omega
      rw [hj]

lemma posAt_lt_posAt (hs : List Int) (hpos : ∀ x ∈ hs, 0 < x) (j k : Nat)
    (hjk : j < k) (hk : k ≤ hs.length) : posAt hs j < posAt hs k := by
  have h1 : posAt hs j ≤ posAt hs (k - 1) :=
    posAt_le_posAt hs hpos j (k - 1) (by omega) (by omega)
  have h2 := getD_pos hs hpos (k - 1) (by omega)
  have h3 := posAt_succ hs (k - 1) (by omega)
  have hkk : k - 1 + 1 = k := by omega
  rw [hkk] at h3
  omega

lemma countLt_le_length (v : Int) : ∀ ps : List Int, countLt v ps ≤ ps.length := by
  intro ps
  induction ps with
  | nil => simp [countLt]
  | cons p pt ih =>
    by_cases hp : p < v <;> simp [countLt, hp]
    omega

lemma countLt_sat (v : Int) : ∀ (ps : List Int) (k : Nat), k < countLt v ps →
    ps.getD k 0 < v := by
  intro ps
  induction ps with
  | nil => intro k hk; simp [countLt] at hk
  | cons p pt ih =>
    intro k hk
    by_cases hp : p < v
    · simp only [countLt, if_pos hp] at hk
      cases k with
      | zero => simpa using hp
      | succ k' => simpa using ih k' (by omega)
    · simp [countLt, hp] at hk

lemma countLt_boundary (v : Int) : ∀ ps : List Int, countLt v ps < ps.length →
    v ≤ ps.getD (countLt v ps) 0 := by
  intro ps
  induction ps with
  | nil => intro h; simp at h
  | cons p pt ih =>
    by_cases hp : p < v
    · simp only [countLt, if_pos hp, List.length_cons]
      intro h
      simpa using ih (by omega)
    · intro h
      simp only [countLt, if_neg hp]
      simpa using not_lt.1 hp

lemma countLt_all (v : Int) : ∀ ps : List Int, (∀ k < ps.length, ps.getD k 0 < v) →
    countLt v ps = ps.length := by
  intro ps
  induction ps with
  | nil => intro _; rfl
  | cons p pt ih =>
    intro h
    have hp : p < v := by simpa using h 0 (by simp)
    simp only [countLt, if_pos hp, List.length_cons]
    rw [ih]
    intro k hk
    simpa using h (k + 1) (by simpa using hk)

lemma countLt_pos (v p : Int) (ps : List Int) (hp : p < v) : 1 ≤ countLt v (p :: ps) := by
  simp [countLt, hp]

lemma lastVisAux_general (v : Int) :
    ∀ (ps : List Int) (i last : Nat),
      lastVisAux v ps i last = if countLt v ps = 0 then last else i + countLt v ps - 1 := by
  intro ps
  induction ps with
  | nil => intro i last; simp [lastVisAux, countLt]
  | cons p pt ih =>
    intro i last
    by_cases hp : p < v
    · have hc : ¬ v ≤ p := not_le.2 hp
      simp only [lastVisAux, if_neg hc, countLt, if_pos hp]
      rw [ih (i + 1) i]
      by_cases h0 : countLt v pt = 0
      · simp [h0]
      · rw [if_neg h0, if_neg (by omega : ¬ countLt v pt + 1 = 0)]
        omega
    · have hc : v ≤ p := not_lt.1 hp
      simp only [lastVisAux, if_pos hc, countLt, if_neg hp]
      simp

lemma posAt_add (hs : List Int) (f k : Nat) :
    posAt hs f + ((hs.drop f).take k).sum = posAt hs (f + k) := by
  unfold posAt
  rw [List.take_add, List.sum_append]

lemma firstVisAux_spec (offset : Int) :
    ∀ (hs : List Int) (a : Int) (i : Nat),
      (∃ j, j < hs.length ∧ offset < a + (hs.take (j + 1)).sum) →
      ∃ j, firstVisAux offset (positionsFrom a hs) hs i = i + j ∧ j < hs.length ∧
        offset < a + (hs.take (j + 1)).sum ∧
        ∀ k < j, a + (hs.take (k + 1)).sum ≤ offset := by
  intro hs
  induction hs with
  | nil =>
    intro a i hex
    obtain ⟨j, hj, _⟩ := hex
    simp at hj
  | cons h t ih =>
    intro a i hex
    by_cases hc : offset < a + h
    · refine ⟨0, ?_, by simp, by simpa using hc, by intro k hk; omega⟩
      simp only [positionsFrom, firstVisAux, if_pos hc]
      omega
    · obtain ⟨j, hj, hoff⟩ := hex
      have hj0 : j ≠ 0 := by
        rintro rfl
        exact hc (by simpa using hoff)
      obtain ⟨j', rfl⟩ : ∃ j', j = j' + 1 := ⟨j - 1, by omega⟩
      have hsum : ∀ m : Nat, ((h :: t).take (m + 1 + 1)).sum = h + (t.take (m + 1)).sum := by
        intro m
        simp [List.take_succ_cons]
      have hex' : ∃ j₀, j₀ < t.length ∧ offset < (a + h) + (t.take (j₀ + 1)).sum := by
        refine ⟨j', by simpa using hj, ?_⟩
        rw [hsum j'] at hoff
        omega
      obtain ⟨j₀, heq, hlt, hoff₀, hmin⟩ := ih (a + h) (i + 1) hex'
      refine ⟨j₀ + 1, ?_, by simpa using hlt, ?_, ?_⟩
      · simp only [positionsFrom, firstVisAux, if_neg hc]
        rw [heq]
        omega
      · rw [hsum j₀]
        omega
      · intro k hk
        cases k with
        | zero =>
          have h1 : ((h :: t).take 1).sum = h := by simp
          rw [h1]
          omega
        | succ k' =>
          rw [hsum k']
          have := hmin k' (by omega)
          omega

lemma firstVis_full (hs : List Int) (offset : Int) (hne : hs ≠ [])
    (hoff : offset < totalLinesOf hs) :
    firstVisAux offset (linePositions hs) hs 0 < hs.length ∧
    offset < posAt hs (firstVisAux offset (linePositions hs) hs 0) +
      hs.getD (firstVisAux offset (linePositions hs) hs 0) 0 ∧
    ∀ k < firstVisAux offset (linePositions hs) hs 0,
      posAt hs k + hs.getD k 0 ≤ offset := by
  have hlpos : 0 < hs.length := List.length_pos.2 hne
  have hex : ∃ j, j < hs.length ∧ offset < 0 + (hs.take (j + 1)).sum := by
    refine ⟨hs.length - 1, by omega, ?_⟩
    have hlen : hs.length - 1 + 1 = hs.length := by omega
    rw [hlen, zero_add, List.take_length]
    exact hoff
  obtain ⟨j, heq, hlt, hoffj, hmin⟩ := firstVisAux_spec offset hs 0 0 hex
  have heq' : firstVisAux offset (linePositions hs) hs 0 = j := by
    unfold linePositions
    omega
  rw [heq']
  refine ⟨hlt, ?_, ?_⟩
  · have h3 := posAt_succ hs j hlt
    unfold posAt at h3 ⊢
    omega
  · intro k hk
    have h3 := posAt_succ hs k (by omega)
    have h4 := hmin k hk
    unfold posAt at h3 ⊢
    omega

lemma lastVis_setup (hs : List Int) (F : Nat) :
    (linePositions hs).drop F = positionsFrom (posAt hs F) (hs.drop F) := by
  unfold linePositions
  rw [positionsFrom_drop hs F 0, zero_add]
  rfl

lemma lastVis_full (hs : List Int) (v : Int) (F : Nat) (hpos : ∀ x ∈ hs, 0 < x)
    (hF : F < hs.length) (hFv : posAt hs F < v) :
    F ≤ lastVisAux v ((linePositions hs).drop F) F F ∧
    lastVisAux v ((linePositions hs).drop F) F F < hs.length ∧
    posAt hs (lastVisAux v ((linePositions hs).drop F) F F) < v ∧
    ∀ j, F ≤ j → j < hs.length → posAt hs j < v →
      j ≤ lastVisAux v ((linePositions hs).drop F) F F := by
  have hdrop := lastVis_setup hs F
  have htl_len : (hs.drop F).length = hs.length - F := List.length_drop F hs
  have hps_len : ((linePositions hs).drop F).length = (hs.drop F).length := by
    rw [hdrop, length_positionsFrom]
  have hgetD : ∀ k, k < (hs.drop F).length →
      ((linePositions hs).drop F).getD k 0 = posAt hs (F + k) := by
    intro k hk
    rw [hdrop, positionsFrom_getD (hs.drop F) k (posAt hs F) hk]
    exact posAt_add hs F k
  have htl_ne : hs.drop F ≠ [] := by
    intro hnil
    rw [hnil] at htl_len
    simp at htl_len
    omega
  have hc1 : 1 ≤ countLt v ((linePositions hs).drop F) := by
    obtain ⟨x, rest, hxr⟩ := List.exists_cons_of_ne_nil htl_ne
    have hps : (linePositions hs).drop F =
        posAt hs F :: positionsFrom (posAt hs F + x) rest := by
      rw [hdrop, hxr]
      rfl
    rw [hps]
    exact countLt_pos v _ _ hFv
  have hc_le : countLt v ((linePositions hs).drop F) ≤ (hs.drop F).length :=
    le_trans (countLt_le_length v _) (le_of_eq hps_len)
  rw [lastVisAux_general v ((linePositions hs).drop F) F F, if_neg (by omega)]
  refine ⟨by omega, by omega, ?_, ?_⟩
  · have hsat := countLt_sat v ((linePositions hs).drop F)
      (countLt v ((linePositions hs).drop F) - 1) (by omega)
    rw [hgetD (countLt v ((linePositions hs).drop F) - 1) (by omega)] at hsat
    have harith : F + (countLt v ((linePositions hs).drop F) - 1) =
        F + countLt v ((linePositions hs).drop F) - 1 := by omega
    rwa [harith] at hsat
  · intro j hFj hjlen hjv
    by_cases hcase : countLt v ((linePositions hs).drop F) = (hs.drop F).length
    · omega
    · have hbd := countLt_boundary v ((linePositions hs).drop F) (by omega)
      rw [hgetD (countLt v ((linePositions hs).drop F)) (by omega)] at hbd
      by_contra hcon
      push_neg at hcon
      have hmono : posAt hs (F + countLt v ((linePositions hs).drop F)) ≤ posAt hs j :=
        posAt_le_posAt hs hpos _ j (by omega) (by omega)
      omega

lemma lastVis_overshoot (hs : List Int) (v : Int) (F : Nat) (hpos : ∀ x ∈ hs, 0 < x)
    (hF : F < hs.length) (hv : totalLinesOf hs < v) :
    lastVisAux v ((linePositions hs).drop F) F F = hs.length - 1 := by
  have hdrop := lastVis_setup hs F
  have htl_len : (hs.drop F).length = hs.length - F := List.length_drop F hs
  have hps_len : ((linePositions hs).drop F).length = (hs.drop F).length := by
    rw [hdrop, length_positionsFrom]
  have hgetD : ∀ k, k < (hs.drop F).length →
      ((linePositions hs).drop F).getD k 0 = posAt hs (F + k) := by
    intro k hk
    rw [hdrop, positionsFrom_getD (hs.drop F) k (posAt hs F) hk]
    exact posAt_add hs F k
  have hall : ∀ k < ((linePositions hs).drop F).length,
      ((linePositions hs).drop F).getD k 0 < v := by
    intro k hk
    rw [hgetD k (by omega)]
    have h2 : posAt hs (F + k) ≤ posAt hs hs.length :=
      posAt_le_posAt hs hpos (F + k) hs.length (by omega) (le_refl _)
    rw [posAt_length] at h2
    omega
  have hcall : countLt v ((linePositions hs).drop F) =
      ((linePositions hs).drop F).length := countLt_all v _ hall
  rw [lastVisAux_general v ((linePositions hs).drop F) F F, hcall, hps_len, htl_len,
    if_neg (by omega)]
  omega

/-- C4: for a nonempty sequence of positive heights, within the meaningful
domain (0 ≤ offset < totalLines, viewportHeight ≥ 1, where the smallest and
largest such indices exist), the visible range is [i, j] with i the smallest
index such that position[i] + height[i] > offset and j ≥ i the largest index
with position[j] < offset + viewportHeight, and the emitted slice is
children[i..j]; an empty item sequence yields an empty slice; and when
offset + viewportHeight exceeds totalLines the last item is included. -/
theorem C4_visibleRange_characterization :
    (∀ (hs : List Int) (offset height : Int),
        hs ≠ [] → (∀ x ∈ hs, 0 < x) → 0 ≤ offset → offset < totalLinesOf hs →
        1 ≤ height →
        ((visibleRange hs offset height).1 < hs.length ∧
          offset < posAt hs (visibleRange hs offset height).1 +
            hs.getD (visibleRange hs offset height).1 0 ∧
          (∀ k < (visibleRange hs offset height).1,
            posAt hs k + hs.getD k 0 ≤ offset)) ∧
        ((visibleRange hs offset height).1 ≤ (visibleRange hs offset height).2 ∧
          (visibleRange hs offset height).2 < hs.length ∧
          posAt hs (visibleRange hs offset height).2 < offset + height ∧
          (∀ j, (visibleRange hs offset height).1 ≤ j → j < hs.length →
            posAt hs j < offset + height → j ≤ (visibleRange hs offset height).2)) ∧
        (∀ (α : Type) (children : List α),
          visibleItems children hs offset height =
            (children.drop (visibleRange hs offset height).1).take
              ((visibleRange hs offset height).2 + 1 - (visibleRange hs offset height).1))) ∧
    (∀ (offset height : Int) (α : Type),
        visibleItems ([] : List α) ([] : List Int) offset height = []) ∧
    (∀ (hs : List Int) (offset height : Int),
        hs ≠ [] → (∀ x ∈ hs, 0 < x) → 0 ≤ offset → offset < totalLinesOf hs →
        1 ≤ height → totalLinesOf hs < offset + height →
        (visibleRange hs offset height).2 = hs.length - 1) := by
  have hrange : ∀ (hs : List Int) (offset height : Int),
      visibleRange hs offset height =
        (firstVisAux offset (linePositions hs) hs 0,
          lastVisAux (offset + height)
            ((linePositions hs).drop (firstVisAux offset (linePositions hs) hs 0))
            (firstVisAux offset (linePositions hs) hs 0)
            (firstVisAux offset (linePositions hs) hs 0)) := by
    intro hs offset height
    rfl
  refine ⟨?_, ?_, ?_⟩
  · intro hs offset height hne hpos hoff0 hofft hh
    obtain ⟨hflt, hfoff, hfmin⟩ := firstVis_full hs offset hne hofft
    have hFle : posAt hs (firstVisAux offset (linePositions hs) hs 0) ≤ offset := by
      rcases Nat.eq_zero_or_pos (firstVisAux offset (linePositions hs) hs 0) with h0 | h0
      · rw [h0]
        exact hoff0
      · have hf1 := hfmin (firstVisAux offset (linePositions hs) hs 0 - 1) (by omega)
        have hsucc := posAt_succ hs (firstVisAux offset (linePositions hs) hs 0 - 1)
          (by omega)
        have harith : firstVisAux offset (linePositions hs) hs 0 - 1 + 1 =
            firstVisAux offset (linePositions hs) hs 0 := by omega
        rw [harith] at hsucc
        omega
    have hFv : posAt hs (firstVisAux offset (linePositions hs) hs 0) < offset + height := by
      omega
    obtain ⟨hl1, hl2, hl3, hl4⟩ := lastVis_full hs (offset + height)
      (firstVisAux offset (linePositions hs) hs 0) hpos hflt hFv
    rw [hrange]
    refine ⟨⟨hflt, hfoff, hfmin⟩, ⟨hl1, hl2, hl3, hl4⟩, ?_⟩
    intro α children
    have hempty : hs.isEmpty = false := by
      cases hs with
      | nil => exact absurd rfl hne
      | cons a b => rfl
    simp only [visibleItems, hempty, Bool.false_eq_true, if_false, hrange]
  · intro offset height α
    simp [visibleItems]
  · intro hs offset height hne hpos hoff0 hofft hh hover
    obtain ⟨hflt, _, _⟩ := firstVis_full hs offset hne hofft
    rw [hrange]
    exact lastVis_overshoot hs (offset + height)
      (firstVisAux offset (linePositions hs) hs 0) hpos hflt hover

/-- Witness for C4 with heights [2, 1, 3] (positions 0, 2, 3, total 6),
offset 2, viewport 2 (range [1, 2]) and viewport 9 (overshoot: last = 2). -/
theorem C4_visibleRange_characterization_witness :
    ((2 : Int) < posAt [2, 1, 3] (visibleRange [2, 1, 3] 2 2).1 +
        List.getD [2, 1, 3] (visibleRange [2, 1, 3] 2 2).1 0) ∧
    (visibleRange [2, 1, 3] 2 2).1 ≤ (visibleRange [2, 1, 3] 2 2).2 ∧
    visibleItems ([] : List Nat) ([] : List Int) 0 3 = [] ∧
    (visibleRange [2, 1, 3] 2 9).2 = ([2, 1, 3] : List Int).length - 1 :=
  ⟨((C4_visibleRange_characterization.1 [2, 1, 3] 2 2 (by decide) (by decide) (by decide)
      (by decide) (by decide)).1).2.1,
   ((C4_visibleRange_characterization.1 [2, 1, 3] 2 2 (by decide) (by decide) (by decide)
      (by decide) (by decide)).2).1.1,
   C4_visibleRange_characterization.2.1 0 3 Nat,
   C4_visibleRange_characterization.2.2 [2, 1, 3] 2 9 (by decide) (by decide) (by decide)
     (by decide) (by decide) (by decide)⟩

lemma unwords_cons_ne (u : List Char) (rest : List (List Char)) (hne : rest ≠ []) :
    unwords (u :: rest) = u ++ ' ' :: unwords rest := by
  cases rest with
  | nil => contradiction
  | cons v r' => rfl

lemma unwords_append (a b : List (List Char)) (ha : a ≠ []) (hb : b ≠ []) :
    unwords (a ++ b) = unwords a ++ ' ' :: unwords b := by
  induction a with
  | nil => contradiction
  | cons x a' ih =>
    cases a' with
    | nil =>
      simp only [List.singleton_append]
      rw [unwords_cons_ne x b hb]
      rfl
    | cons y a'' =>
      have ha' : (y :: a'') ≠ [] := by simp
      have hab : (y :: a'') ++ b ≠ [] := by simp
      rw [List.cons_append, unwords_cons_ne x ((y :: a'') ++ b) hab,
        unwords_cons_ne x (y :: a'') ha', ih ha']
      simp [List.append_assoc]

lemma unwords_length_pos (ws : List (List Char)) (hne : ws ≠ [])
    (hgood : ∀ u ∈ ws, u ≠ []) : 0 < (unwords ws).length := by
  cases ws with
  | nil => contradiction
  | cons u rest =>
    have hu : u ≠ [] := hgood u (by simp)
    cases rest with
    | nil => simpa [unwords] using List.length_pos.2 hu
    | cons v r' =>
      have : unwords (u :: v :: r') = u ++ ' ' :: unwords (v :: r') := rfl
      rw [this, List.length_append]
      simp

lemma mem_unwords : ∀ (ws : List (List Char)) (c : Char), c ∈ unwords ws →
    c = ' ' ∨ ∃ u ∈ ws, c ∈ u := by
  intro ws
  induction ws with
  | nil => intro c hc; simp [unwords] at hc
  | cons u rest ih =>
    intro c hc
    cases rest with
    | nil =>
      right
      exact ⟨u, by simp, by simpa [unwords] using hc⟩
    | cons v rest' =>
      have heq : unwords (u :: v :: rest') = u ++ ' ' :: unwords (v :: rest') := rfl
      rw [heq] at hc
      rcases List.mem_append.1 hc with h | h
      · right; exact ⟨u, by simp, h⟩
      · rcases List.mem_cons.1 h with rfl | h2
        · left; rfl
        · rcases ih c h2 with h3 | ⟨u', hu', hcu⟩
          · left; exact h3
          · right; exact ⟨u', by simp [hu'], hcu⟩

lemma unwords_cons_eq_append (u : List Char) (rest : List (List Char)) :
    ∃ tl, unwords (u :: rest) = u ++ tl := by
  cases rest with
  | nil => exact ⟨[], by simp [unwords]⟩
  | cons v r' => exact ⟨' ' :: unwords (v :: r'), rfl⟩

lemma splitOnNl_no_nl : ∀ cs : List Char, '\n' ∉ cs → splitOnNl cs = [cs] := by
  intro cs
  induction cs with
  | nil => intro _; rfl
  | cons c rest ih =>
    intro h
    have hc : ¬ c = '\n' := fun hc => h (by simp [hc])
    have hrest : '\n' ∉ rest := fun hr => h (by simp [hr])
    simp only [splitOnNl, if_neg hc, ih hrest]

lemma wrapParaAux_nil (w : Nat) : ∀ fuel, wrapParaAux w fuel [] = [] := by
  intro fuel
  cases fuel with
  | zero => rfl
  | succ f => rfl

lemma dropWhile_length_le (p : Char → Bool) :
    ∀ l : List Char, (l.dropWhile p).length ≤ l.length := by
  intro l
  induction l with
  | nil => simp
  | cons a b ih =>
    rw [List.dropWhile_cons]
    split
    · simp only [List.length_cons]
      omega
    · exact le_refl _

lemma wrapParaAux_fuel (w : Nat) (hw : 1 ≤ w) :
    ∀ (f₁ f₂ : Nat) (cs : List Char), cs.length ≤ f₁ → cs.length ≤ f₂ →
      wrapParaAux w f₁ cs = wrapParaAux w f₂ cs := by
  intro f₁
  induction f₁ with
  | zero =>
    intro f₂ cs h1 _
    have : cs = [] := by
      cases cs with
      | nil => rfl
      | cons a b => simp at h1
    rw [this, wrapParaAux_nil, wrapParaAux_nil]
  | succ f ih =>
    intro f₂ cs h1 h2
    cases cs with
    | nil => rw [wrapParaAux_nil, wrapParaAux_nil]
    | cons a b =>
      obtain ⟨g, rfl⟩ : ∃ g, f₂ = g + 1 := by
        cases f₂ with
        | zero => simp at h2
        | succ g => exact ⟨g, rfl⟩
      rw [wrapParaAux_succ, wrapParaAux_succ]
      have he : ¬ (a :: b).isEmpty = true := by simp
      rw [if_neg he, if_neg he]
      by_cases hsh : (a :: b).length ≤ w
      · rw [if_pos hsh, if_pos hsh]
      · rw [if_neg hsh, if_neg hsh]
        have hbp := breakPointOf_pos (a :: b) w hw
        have hlen : (((a :: b).drop (breakPointOf (a :: b) w)).dropWhile
            jsWhitespace).length ≤ b.length := by
          have hd := dropWhile_length_le jsWhitespace
            ((a :: b).drop (breakPointOf (a :: b) w))
          rw [List.length_drop] at hd
          simp only [List.length_cons] at hd
          omega
        have hb1 : b.length ≤ f := by
          simp only [List.length_cons] at h1
          omega
        have hb2 : b.length ≤ g := by
          simp only [List.length_cons] at h2
          omega
        congr 1
        exact ih g _ (by omega) (by omega)

lemma wrapPara_step (cs : List Char) (w : Nat) (hw : 1 ≤ w) (hlen : w < cs.length) :
    wrapPara w cs = cs.take (breakPointOf cs w) ::
      wrapPara w ((cs.drop (breakPointOf cs w)).dropWhile jsWhitespace) := by
  have hne : ¬ cs.isEmpty = true := by
    cases cs with
    | nil => simp at hlen
    | cons a b => simp
  obtain ⟨n, hn⟩ : ∃ n, cs.length = n + 1 := ⟨cs.length - 1, by omega⟩
  have hbp := breakPointOf_pos cs w hw
  have hlen2 : ((cs.drop (breakPointOf cs w)).dropWhile jsWhitespace).length ≤ n := by
    have hd := dropWhile_length_le jsWhitespace (cs.drop (breakPointOf cs w))
    rw [List.length_drop] at hd
    omega
  rw [wrapPara, hn, wrapParaAux_succ, if_neg hne, if_neg (by omega)]
  rw [wrapPara, wrapParaAux_fuel w hw n _ _ hlen2 (le_refl _)]

lemma wrapPara_short (cs : List Char) (w : Nat) (hne : cs ≠ []) (hlen : cs.length ≤ w) :
    wrapPara w cs = [cs] := by
  have hne2 : ¬ cs.isEmpty = true := by
    cases cs with
    | nil => exact absurd rfl hne
    | cons a b => simp
  obtain ⟨n, hn⟩ : ∃ n, cs.length = n + 1 := by
    cases cs with
    | nil => exact absurd rfl hne
    | cons a b => exact ⟨b.length, by simp⟩
  rw [wrapPara, hn, wrapParaAux_succ, if_neg hne2, if_pos (by omega)]

lemma wrapPara_ne_nil (cs : List Char) (w : Nat) (hw : 1 ≤ w) (hne : cs ≠ []) :
    wrapPara w cs ≠ [] := by
  by_cases hsh : cs.length ≤ w
  · rw [wrapPara_short cs w hne hsh]
    simp
  · rw [wrapPara_step cs w hw (by omega)]
    simp

lemma lastSpaceIdx_eq (cs : List Char) :
    ∀ (k s : Nat), s ≤ k → cs[s]? = some ' ' →
      (∀ j, s < j → j ≤ k → cs[j]? ≠ some ' ') →
      lastSpaceIdx cs k = some s := by
  intro k
  induction k with
  | zero =>
    intro s hs hsp _
    have h0 : s = 0 := by omega
    subst h0
    simp [lastSpaceIdx, hsp]
  | succ m ih =>
    intro s hs hsp hafter
    by_cases hsm : s = m + 1
    · subst hsm
      simp [lastSpaceIdx, hsp]
    · have hnot : cs[m + 1]? ≠ some ' ' := hafter (m + 1) (by omega) (le_refl _)
      rw [lastSpaceIdx, if_neg hnot]
      exact ih s (by omega) hsp (fun j hj1 hj2 => hafter j hj1 (by omega))

lemma splitFit_cons (rem : Nat) (u : List Char) (vs : List (List Char)) :
    splitFit rem (u :: vs) =
      if u.length ≤ rem then
        (u :: (splitFit (rem - u.length - 1) vs).1, (splitFit (rem - u.length - 1) vs).2)
      else ([], u :: vs) := by
  rw [splitFit]

lemma splitFit_spec :
    ∀ (ws : List (List Char)) (rem : Nat), (∀ u ∈ ws, u ≠ []) →
      (splitFit rem ws).1 ++ (splitFit rem ws).2 = ws ∧
      ((splitFit rem ws).1 ≠ [] → (unwords (splitFit rem ws).1).length ≤ rem) ∧
      ((splitFit rem ws).1 ≠ [] → (splitFit rem ws).2 ≠ [] →
        rem < (unwords (splitFit rem ws).1).length + 1 +
          ((splitFit rem ws).2.headD []).length) ∧
      ((splitFit rem ws).1 = [] → (splitFit rem ws).2 = ws ∧
        (ws ≠ [] → rem < (ws.headD []).length)) := by
  intro ws
  induction ws with
  | nil =>
    intro rem _
    refine ⟨rfl, by intro h; exact absurd rfl h, by intro h; exact absurd rfl h, ?_⟩
    intro _
    exact ⟨rfl, fun h => absurd rfl h⟩
  | cons u vs ih =>
    intro rem hgood
    have hu : u ≠ [] := hgood u (by simp)
    have hupos : 0 < u.length := List.length_pos.2 hu
    by_cases hfit : u.length ≤ rem
    · obtain ⟨ih1, ih2, ih3, ih4⟩ := ih (rem - u.length - 1) (fun x hx => hgood x (by simp [hx]))
      rw [splitFit_cons, if_pos hfit]
      dsimp only
      have hmem : ∀ x ∈ (splitFit (rem - u.length - 1) vs).1, x ∈ u :: vs := by
        intro x hx
        rw [← ih1]
        exact List.mem_cons.2 (Or.inr (List.mem_append.2 (Or.inl hx)))
      refine ⟨by rw [List.cons_append, ih1], ?_, ?_, ?_⟩
      · intro _
        by_cases ha' : (splitFit (rem - u.length - 1) vs).1 = []
        · rw [ha']
          simpa [unwords] using hfit
        · have h2 := ih2 ha'
          have hpos : 0 < (unwords (splitFit (rem - u.length - 1) vs).1).length :=
            unwords_length_pos _ ha' (fun x hx => hgood x (hmem x hx))
          rw [unwords_cons_ne u _ ha', List.length_append]
          simp only [List.length_cons]
          omega
      · intro _ hb
        by_cases ha' : (splitFit (rem - u.length - 1) vs).1 = []
        · have h4 := ih4 ha'
          have hvs : vs ≠ [] := fun hnil => hb (h4.1.trans hnil)
          have h6 := h4.2 hvs
          have h5 : (splitFit (rem - u.length - 1) vs).2.headD [] = vs.headD [] := by
            rw [h4.1]
          rw [ha', h5]
          have hlen_u : (unwords [u]).length = u.length := by simp [unwords]
          rw [hlen_u]
          omega
        · have h3 := ih3 ha' hb
          have hpos : 0 < (unwords (splitFit (rem - u.length - 1) vs).1).length :=
            unwords_length_pos _ ha' (fun x hx => hgood x (hmem x hx))
          rw [unwords_cons_ne u _ ha', List.length_append]
          simp only [List.length_cons]
          omega
      · intro hcon
        simp at hcon
    · rw [splitFit_cons, if_neg hfit]
      refine ⟨rfl, by intro h; exact absurd rfl h, by intro h; exact absurd rfl h, ?_⟩
      intro _
      refine ⟨rfl, ?_⟩
      intro _
      simp only [List.headD_cons]
      omega

lemma wrapPara_unwords (w : Nat) (hw : 1 ≤ w) :
    ∀ (n : Nat) (ws : List (List Char)), ws.length ≤ n → ws ≠ [] →
      (∀ u ∈ ws, GoodWord w u) →
      unwords (wrapPara w (unwords ws)) = unwords ws := by
  intro n
  induction n with
  | zero =>
    intro ws hlen hne _
    cases ws with
    | nil => exact absurd rfl hne
    | cons a b => simp at hlen
  | succ m ih =>
    intro ws hlen hne hgood
    have hws_ne : ∀ u ∈ ws, u ≠ [] := fun u hu => (hgood u hu).1
    have hcs_pos : 0 < (unwords ws).length := unwords_length_pos ws hne hws_ne
    have hcs_ne : unwords ws ≠ [] := by
      intro hnil
      rw [hnil] at hcs_pos
      simp at hcs_pos
    by_cases hshort : (unwords ws).length ≤ w
    · rw [wrapPara_short (unwords ws) w hcs_ne hshort]
      rfl
    · push_neg at hshort
      obtain ⟨hab, hfit, hmax, hnilcase⟩ := splitFit_spec ws w hws_ne
      set A := (splitFit w ws).1 with hA
      set B := (splitFit w ws).2 with hB
      have ha_ne : A ≠ [] := by
        intro ha
        obtain ⟨hbws, hhead⟩ := hnilcase ha
        obtain ⟨u, vs, rfl⟩ := List.exists_cons_of_ne_nil hne
        have h1 := (hgood u (by simp)).2.1
        have h2 := hhead (by simp)
        simp only [List.headD_cons] at h2
        omega
      have hb_ne : B ≠ [] := by
        intro hb
        rw [hb, List.append_nil] at hab
        have h1 := hfit ha_ne
        rw [hab] at h1
        omega
      have ha_mem : ∀ x ∈ A, x ∈ ws := by
        intro x hx
        rw [← hab]
        exact List.mem_append.2 (Or.inl hx)
      have hb_mem : ∀ x ∈ B, x ∈ ws := by
        intro x hx
        rw [← hab]
        exact List.mem_append.2 (Or.inr hx)
      have hr : unwords ws = unwords A ++ ' ' :: unwords B := by
        rw [← hab]
        exact unwords_append A B ha_ne hb_ne
      obtain ⟨u1, b', hb_eq⟩ := List.exists_cons_of_ne_nil hb_ne
      have hu1_mem : u1 ∈ ws := hb_mem u1 (by rw [hb_eq]; simp)
      have hu1_good := hgood u1 hu1_mem
      have hu1_ne : u1 ≠ [] := hu1_good.1
      have hs1 : 1 ≤ (unwords A).length :=
        unwords_length_pos A ha_ne (fun x hx => hws_ne x (ha_mem x hx))
      have hs_le : (unwords A).length ≤ w := hfit ha_ne
      have hmax' : w < (unwords A).length + 1 + u1.length := by
        have hm := hmax ha_ne hb_ne
        rw [hb_eq] at hm
        simpa using hm
      obtain ⟨tl, htl⟩ := unwords_cons_eq_append u1 b'
      have hB_eq : unwords B = u1 ++ tl := by rw [hb_eq]; exact htl
      have hsp : (unwords ws)[(unwords A).length]? = some ' ' := by
        rw [hr, List.getElem?_append_right (le_refl _)]
        simp
      have hafter : ∀ j, (unwords A).length < j → j ≤ w →
          (unwords ws)[j]? ≠ some ' ' := by
        intro j hj1 hj2
        have hklt : j - (unwords A).length - 1 < u1.length := by omega
        rw [hr, List.getElem?_append_right (by omega)]
        have hidx : j - (unwords A).length = (j - (unwords A).length - 1) + 1 := by omega
        rw [hidx]
        simp only [List.getElem?_cons_succ]
        rw [hB_eq, List.getElem?_append, if_pos hklt]
        intro hcon
        rw [List.getElem?_eq_getElem hklt] at hcon
        have hcmem : u1[j - (unwords A).length - 1] ∈ u1 := List.getElem_mem hklt
        have hnws := hu1_good.2.2 _ hcmem
        injection hcon with hcc
        rw [hcc] at hnws
        exact absurd hnws (by decide)
      have hlsi : lastSpaceIdx (unwords ws) w = some (unwords A).length :=
        lastSpaceIdx_eq (unwords ws) w (unwords A).length hs_le hsp hafter
      have hbp : breakPointOf (unwords ws) w = (unwords A).length := by
        simp only [breakPointOf, hlsi]
        rw [if_pos (by omega : 0 < (unwords A).length)]
      rw [wrapPara_step (unwords ws) w hw hshort, hbp]
      have htake : (unwords ws).take (unwords A).length = unwords A := by
        rw [hr]
        exact List.take_left _ _
      have hdrop : (unwords ws).drop (unwords A).length = ' ' :: unwords B := by
        rw [hr]
        exact List.drop_left _ _
      rw [htake, hdrop]
      have hdw : (' ' :: unwords B).dropWhile jsWhitespace = unwords B := by
        rw [List.dropWhile_cons, if_pos (by decide)]
        obtain ⟨c, u1', hcu⟩ := List.exists_cons_of_ne_nil hu1_ne
        have hcmem : c ∈ u1 := by rw [hcu]; simp
        have hcnws := hu1_good.2.2 c hcmem
        rw [hB_eq, hcu]
        simp only [List.cons_append, List.dropWhile_cons]
        rw [if_neg (by rw [hcnws]; decide)]
      rw [hdw]
      have hb'_len : B.length ≤ m := by
        have hl : ws.length = A.length + B.length := by
          rw [← hab, List.length_append]
        have hA_pos : 0 < A.length := List.length_pos.2 ha_ne
        omega
      have hrec := ih B hb'_len hb_ne (fun x hx => hgood x (hb_mem x hx))
      have hwp_ne : wrapPara w (unwords B) ≠ [] := by
        apply wrapPara_ne_nil (unwords B) w hw
        have hBpos : 0 < (unwords B).length :=
          unwords_length_pos B hb_ne (fun x hx => hws_ne x (hb_mem x hx))
        intro hnil
        rw [hnil] at hBpos
        simp at hBpos
      rw [unwords_cons_ne _ _ hwp_ne, hrec, ← hr]

/-- The claim says rejoining wrapped lines with single spaces reconstructs
any paragraph modulo trailing whitespace.  False: a hard break inserts a
space that was never there ("abcd" at width 2 rejoins to "ab cd"), and a
break landing on a run of two spaces swallows one of them ("ab  cd" at
width 2 rejoins to "ab cd"); neither difference is trailing whitespace. -/
theorem C9_counterexample :
    wrapText ['a', 'b', 'c', 'd'] 2 = [['a', 'b'], ['c', 'd']] ∧
    unwords (wrapText ['a', 'b', 'c', 'd'] 2) ≠ ['a', 'b', 'c', 'd'] ∧
    unwords (wrapText ['a', 'b', ' ', ' ', 'c', 'd'] 2) ≠ ['a', 'b', ' ', ' ', 'c', 'd'] ∧
    (unwords (wrapText ['a', 'b', 'c', 'd'] 2)).reverse.dropWhile jsWhitespace ≠
      (['a', 'b', 'c', 'd'] : List Char).reverse.dropWhile jsWhitespace := by
  decide

/-- C9 amended: for every paragraph that is a single-space-separated
sequence of nonempty whitespace-free words each of length ≤ maxWidth
(maxWidth ≥ 1), rejoining the wrapped lines with a single space at each
break reconstructs the paragraph exactly.  Hard breaks (a word longer than
maxWidth) and runs of consecutive spaces are exactly the cases the
counterexample shows cannot round-trip. -/
theorem C9_amended_wrap_round_trip :
    ∀ (w : Int) (ws : List (List Char)), 1 ≤ w → ws ≠ [] →
      (∀ u ∈ ws, GoodWord w.toNat u) →
      unwords (wrapText (unwords ws) w) = unwords ws := by
  intro w ws hw hne hgood
  have hws_ne : ∀ u ∈ ws, u ≠ [] := fun u hu => (hgood u hu).1
  have hnl : '\n' ∉ unwords ws := by
    intro hmem
    rcases mem_unwords ws '\n' hmem with h | ⟨u, hu, hcu⟩
    · exact absurd h (by decide)
    · exact absurd ((hgood u hu).2.2 '\n' hcu) (by decide)
  have hpos : 0 < (unwords ws).length := unwords_length_pos ws hne hws_ne
  have hempty : (unwords ws).isEmpty = false := by
    cases h : unwords ws with
    | nil => rw [h] at hpos; simp at hpos
    | cons a b => rfl
  rw [wrapText, if_neg (by omega), splitOnNl_no_nl _ hnl]
  simp only [List.map_cons, List.map_nil, hempty, Bool.false_eq_true, if_false,
    List.flatten_cons, List.flatten_nil, List.append_nil]
  exact wrapPara_unwords w.toNat (by omega) ws.length ws (le_refl _) hne hgood

/-- Witness for C9 amended: words ab, cd at width 2; the wrap breaks at the
space and rejoining reconstructs "ab cd" exactly. -/
theorem C9_amended_wrap_round_trip_witness :
    unwords (wrapText (unwords [['a', 'b'], ['c', 'd']]) 2) =
      unwords [['a', 'b'], ['c', 'd']] :=
  C9_amended_wrap_round_trip 2 [['a', 'b'], ['c', 'd']] (by decide) (by decide) (by decide)

end Woof
